import Mathlib

/-! Shallow embedding of the core of `DailyArXiV.py`: the LaTeX-like text
normalizer (`normalize_tex_like`, `_apply_tex_outside_math`, `_MATH_RE`,
`_tex_replacements`), the listing parser (`parse_list`), and the
bucket classification performed in `main`.  Strings are modelled as
`List Char`.  Regular-expression behaviour (leftmost match, non-greedy
`.+?` / `.*?` under `re.DOTALL`, alternation priority, non-overlapping
`finditer` / `sub` scans) is translated into explicit recursive scans. -/

namespace DailyArXiV

/-- Strings of the Python source are modelled as lists of characters. -/
abbrev Str := List Char

/-- The backtick character, via its code point. -/
def btick : Char := Char.ofNat 96

/-- The apostrophe character, via its code point. -/
def apos : Char := Char.ofNat 39

/-- The character class matched by Python's `\s` (and stripped by
`str.strip()`) on unicode strings. -/
def isPySpace (c : Char) : Bool :=
  decide (c = ' ' ∨ c = '\t' ∨ c = '\n' ∨ c = '\u000B' ∨ c = '\u000C' ∨ c = '\r' ∨
    c = '\u001C' ∨ c = '\u001D' ∨ c = '\u001E' ∨ c = '\u001F' ∨
    c = '\u0085' ∨ c = '\u00A0' ∨ c = '\u1680' ∨
    (0x2000 ≤ c.toNat ∧ c.toNat ≤ 0x200A) ∨
    c = '\u2028' ∨ c = '\u2029' ∨ c = '\u202F' ∨ c = '\u205F' ∨ c = '\u3000')

/-- Drop the maximal leading run of whitespace (the greedy `\s*`). -/
def skipSpaces : Str → Str
  | [] => []
  | c :: rest => if isPySpace c then skipSpaces rest else c :: rest

/-- `re.sub` for a one-character literal pattern `[a]`: leftmost,
non-overlapping, global replacement by `r`. -/
def replace1 (a : Char) (r : Str) : Str → Str
  | [] => []
  | x :: rest =>
    if x = a then r ++ replace1 a r rest
    else x :: replace1 a r rest

/-- `re.sub` for a two-character literal pattern `[a, b]`. -/
def replace2 (a b : Char) (r : Str) : Str → Str
  | [] => []
  | [c] => [c]
  | x :: y :: rest =>
    if x = a ∧ y = b then r ++ replace2 a b r rest
    else x :: replace2 a b r (y :: rest)

/-- `re.sub` for a three-character literal pattern `[a, b, c]`. -/
def replace3 (a b c : Char) (r : Str) : Str → Str
  | [] => []
  | [x] => [x]
  | [x, y] => [x, y]
  | x :: y :: z :: rest =>
    if x = a ∧ y = b ∧ z = c then r ++ replace3 a b c r rest
    else x :: replace3 a b c r (y :: z :: rest)

/-- `re.sub(r"\\,\s*", "\u2009", ·)`, fuelled: replace `\,` together with
the following maximal whitespace run by a thin space.  The fuel only pays
for termination; a run with fuel `≥ length` computes the full substitution,
and exhausted fuel returns the remaining text unchanged. -/
def replaceThinF : Nat → Str → Str
  | 0, s => s
  | _ + 1, [] => []
  | f + 1, x :: rest =>
    if x = '\\' ∧ rest.head? = some ',' then
      '\u2009' :: replaceThinF f (skipSpaces rest.tail)
    else
      x :: replaceThinF f rest

/-- `re.sub(r"\\,\s*", "\u2009", s)`. -/
def replaceThin (s : Str) : Str := replaceThinF s.length s

/-- The ordered substitution table `_tex_replacements` (lines 186-199 of
`DailyArXiV.py`), one `re.sub` pass per row. -/
def tex_replacements : List (Str → Str) :=
  [replace3 '-' '-' '-' ['\u2014'],
   replace2 '-' '-' ['\u2013'],
   replace2 btick btick ['\u201C'],
   replace2 apos apos ['\u201D'],
   replaceThin,
   replace2 '\\' ';' ['\u2005'],
   replace2 '\\' ':' ['\u2005'],
   replace2 '\\' '!' [],
   replace1 '~' ['\u00A0'],
   replace2 '\\' '-' [],
   replace2 '\\' '/' [],
   replace2 '\\' '&' ['&']]

/-- The `for pat, repl in _tex_replacements: chunk = pat.sub(repl, chunk)`
loop applied to one plain chunk. -/
def applyRules (chunk : Str) : Str :=
  tex_replacements.foldl (fun acc f => f acc) chunk

/-- Index of the first occurrence of character `c` in a list. -/
def findCharIdx (c : Char) : Str → Option Nat
  | [] => none
  | a :: rest =>
    if a = c then some 0
    else (findCharIdx c rest).map (· + 1)

/-- Index of the first position where `c₁` is immediately followed by `c₂`. -/
def findPairIdx (c₁ c₂ : Char) : Str → Option Nat
  | [] => none
  | a :: rest =>
    if a = c₁ ∧ rest.head? = some c₂ then some 0
    else (findPairIdx c₁ c₂ rest).map (· + 1)

/-- `_MATH_RE` = `(\\\(.+?\\\)|\\\[.+?\\\]|\$\$.*?\$\$|\$.*?\$)` with
`re.DOTALL`, matched at the head of `s`: returns the length of the match
when one of the four alternatives (tried in this order, shortest content
first, `.` matching every character) succeeds at this position. -/
def mathMatchAt : Str → Option Nat
  | [] => none
  | [_] => none
  | a :: b :: rest =>
    if a = '\\' ∧ b = '(' then
      (findPairIdx '\\' ')' rest.tail).map (· + 5)
    else if a = '\\' ∧ b = '[' then
      (findPairIdx '\\' ']' rest.tail).map (· + 5)
    else if a = '$' ∧ b = '$' then
      some (((findPairIdx '$' '$' rest).map (· + 4)).getD 2)
    else if a = '$' then
      (findCharIdx '$' (b :: rest)).map (· + 2)
    else none

/-- Accumulate a plain character in front of a span decomposition,
merging it with an immediately following plain span. -/
def consPlain (c : Char) : List (Bool × Str) → List (Bool × Str)
  | (false, cs) :: rest => (false, c :: cs) :: rest
  | spans => (false, [c]) :: spans

/-- The `_MATH_RE.finditer` scan of `_apply_tex_outside_math`, fuelled:
decompose `s` into maximal plain spans (`false`) and math regions
(`true`), left to right, non-overlapping, first match wins.  Fuel
`≥ length` computes the full decomposition. -/
def splitSpansF : Nat → Str → List (Bool × Str)
  | 0, _ => []
  | _ + 1, [] => []
  | f + 1, c :: rest =>
    match mathMatchAt (c :: rest) with
    | some n => (true, (c :: rest).take n) :: splitSpansF f ((c :: rest).drop n)
    | none => consPlain c (splitSpansF f rest)

/-- Decomposition of a string into plain spans and math regions. -/
def splitSpans (s : Str) : List (Bool × Str) := splitSpansF s.length s

/-- Math regions are kept exactly as-is (delimiters included); plain
chunks go through the substitution loop. -/
def renderSpan : Bool × Str → Str
  | (true, cs) => cs
  | (false, cs) => applyRules cs

/-- `_apply_tex_outside_math` (lines 201-220): rewrite the non-math
chunks, keep the math regions, and concatenate in order. -/
def apply_tex_outside_math (s : Str) : Str :=
  ((splitSpans s).map renderSpan).flatten

/-- `normalize_tex_like` (lines 222-229): empty input is returned
unchanged, otherwise `_apply_tex_outside_math` runs. -/
def normalize_tex_like (s : Str) : Str :=
  if s = [] then s else apply_tex_outside_math s

/-! ## Listing parser (`parse_list`, lines 26-69)

BeautifulSoup element selection and text flattening is third-party
library behaviour; a head block (`<dt>`) is abstracted by the `href` of
its first `a[href^="/abs/"]` anchor (if any), and a body block (`<dd>`)
by the flattened texts (`get_text(" ", strip=True)`) of its
`.list-title`, `p.mathjax` and `.list-subjects` elements (if present). -/

/-- A head block: `dt.select_one('a[href^="/abs/"]')`, as its href. -/
structure DtBlock where
  absLink : Option Str
deriving DecidableEq

/-- A body block: flattened texts of the three designated elements. -/
structure DdBlock where
  titleText : Option Str
  abstractText : Option Str
  subjectsText : Option Str
deriving DecidableEq

/-- One extracted submission record. -/
structure Entry where
  id : Str
  title : Str
  abstract : Str
  absUrl : Str
  codes : List Str
deriving DecidableEq

/-- `BASE = "https://arxiv.org"`. -/
def BASE : Str := "https://arxiv.org".toList

/-- Python `str.strip()`. -/
def stripPy (s : Str) : Str :=
  ((skipSpaces s).reverse |> skipSpaces).reverse

/-- Python `str.replace(pat, "", 1)`: remove the first occurrence of
`pat` (taken non-empty). -/
def removeFirst (pat : Str) : Str → Str
  | [] => []
  | c :: rest =>
    if pat.isPrefixOf (c :: rest) then (c :: rest).drop pat.length
    else c :: removeFirst pat rest

/-- The regex `/abs/(\d{4}\.\d{5}(?:v\d+)?)` matched at the head of the
string, returning group 1.  The optional version marker is greedy: it is
taken whenever `v` followed by at least one digit is present. -/
def matchIdAt : Str → Option Str
  | '/' :: 'a' :: 'b' :: 's' :: '/' :: d1 :: d2 :: d3 :: d4 :: '.' ::
      e1 :: e2 :: e3 :: e4 :: e5 :: rest =>
    if d1.isDigit && d2.isDigit && d3.isDigit && d4.isDigit &&
       e1.isDigit && e2.isDigit && e3.isDigit && e4.isDigit && e5.isDigit then
      match rest with
      | 'v' :: vrest =>
        if vrest.takeWhile Char.isDigit = [] then
          some [d1, d2, d3, d4, '.', e1, e2, e3, e4, e5]
        else
          some ([d1, d2, d3, d4, '.', e1, e2, e3, e4, e5] ++
            'v' :: vrest.takeWhile Char.isDigit)
      | _ => some [d1, d2, d3, d4, '.', e1, e2, e3, e4, e5]
    else none
  | _ => none

/-- `re.search(r"/abs/(\d{4}\.\d{5}(?:v\d+)?)", href)`: leftmost match. -/
def searchId : Str → Option Str
  | [] => none
  | c :: rest =>
    match matchIdAt (c :: rest) with
    | some g => some g
    | none => searchId rest

/-- Title extraction (lines 44-45): flattened text of `.list-title`,
first occurrence of `"Title:"` removed, then stripped; empty if the
element is absent. -/
def extract_title : Option Str → Str
  | none => []
  | some txt => stripPy (removeFirst ("Title:".toList) txt)

/-- Abstract extraction (lines 47-51): flattened text of `p.mathjax`;
a leading `"Abstract:"` label is cut off and the remainder stripped. -/
def extract_abstract : Option Str → Str
  | none => []
  | some txt =>
    if ("Abstract:".toList).isPrefixOf txt then stripPy (txt.drop 9)
    else txt

/-- The character class `[A-Za-z0-9.\-]` of the subject-code regex. -/
def isCodeChar (c : Char) : Bool :=
  c.isAlpha || c.isDigit || c == '.' || c == '-'

/-- `re.findall(r"\(([A-Za-z0-9.\-]+)\)", ·)`, fuelled: scan left to
right; at `(` take the maximal run of code characters; the run matches
when it is non-empty and immediately followed by `)` (greedy `+` with no
viable backtracking, since every shorter run is followed by a code
character, never by `)`); continue after the closing `)` on success,
at the next position on failure. -/
def findCodesF : Nat → Str → List Str
  | 0, _ => []
  | _ + 1, [] => []
  | f + 1, c :: rest =>
    if c = '(' ∧ rest.takeWhile isCodeChar ≠ [] ∧
        (rest.drop (rest.takeWhile isCodeChar).length).head? = some ')' then
      rest.takeWhile isCodeChar ::
        findCodesF f (rest.drop ((rest.takeWhile isCodeChar).length + 1))
    else findCodesF f rest

/-- All parenthesized code tokens of a subjects text, in order. -/
def findCodes (s : Str) : List Str := findCodesF s.length s

/-- `codes = set(re.findall(...))` (line 56) with `""` for an absent
subjects element: a deduplicated token list models the Python set. -/
def extract_codes (so : Option Str) : List Str :=
  (findCodes (so.getD [])).dedup

/-- The body of the `for dt, dd in zip(dts, dds)` loop (lines 33-68):
`None` when the pair is dropped (no `/abs/` anchor, or no identifier in
its href), otherwise the constructed entry. -/
def parse_pair (dt : DtBlock) (dd : DdBlock) : Option Entry :=
  match dt.absLink with
  | none => none
  | some href =>
    match searchId href with
    | none => none
    | some arxid =>
      some { id := arxid
             title := normalize_tex_like (extract_title dd.titleText)
             abstract := normalize_tex_like (extract_abstract dd.abstractText)
             absUrl := BASE ++ href
             codes := extract_codes dd.subjectsText }

/-- `parse_list` (lines 26-69) over the abstracted head/body blocks. -/
def parse_list (dts : List DtBlock) (dds : List DdBlock) : List Entry :=
  (dts.zip dds).filterMap fun p => parse_pair p.1 p.2

/-- `"astro-ph.GA"`. -/
def gaCode : Str := "astro-ph.GA".toList

/-- `"astro-ph.IM"`. -/
def imCode : Str := "astro-ph.IM".toList

/-- The classification loop of `main` (lines 241-250): every parsed
entry goes to the GA bucket if it carries `astro-ph.GA`, else to the IM
bucket if it carries `astro-ph.IM`, else to the remainder bucket. -/
def classify (entries : List Entry) : List Entry × List Entry × List Entry :=
  entries.foldl
    (fun acc e =>
      if gaCode ∈ e.codes then (acc.1 ++ [e], acc.2.1, acc.2.2)
      else if imCode ∈ e.codes then (acc.1, acc.2.1 ++ [e], acc.2.2)
      else (acc.1, acc.2.1, acc.2.2 ++ [e]))
    ([], [], [])

/-! ## Spec-side predicates (used only in theorem statements) -/

/-- The identifier grammar of the spec: `\d{4}\.\d{5}` optionally
followed by `v` and at least one digit, matching the whole string. -/
def validArxivId : Str → Bool
  | d1 :: d2 :: d3 :: d4 :: '.' :: e1 :: e2 :: e3 :: e4 :: e5 :: rest =>
    d1.isDigit && d2.isDigit && d3.isDigit && d4.isDigit &&
    e1.isDigit && e2.isDigit && e3.isDigit && e4.isDigit && e5.isDigit &&
    (match rest with
     | [] => true
     | 'v' :: vs => !vs.isEmpty && vs.all Char.isDigit
     | _ => false)
  | _ => false

/-- A well-formed protected region: one of the four delimiter pairs
around a content core (non-empty for the `.+?` alternatives). -/
def DelimitedSpan (cs : Str) : Prop :=
  (∃ core : Str, core ≠ [] ∧ cs = ('\\' :: '(' :: core) ++ ['\\', ')']) ∨
  (∃ core : Str, core ≠ [] ∧ cs = ('\\' :: '[' :: core) ++ ['\\', ']']) ∨
  (∃ core : Str, cs = ('$' :: '$' :: core) ++ ['$', '$']) ∨
  (∃ core : Str, cs = ('$' :: core) ++ ['$'])

/-- The twelve source patterns of the substitution table, in order (for
row five, `\,` triggers the rule; its `\s*` tail matches the empty
string, so the row's pattern occurs in a string iff `\,` does). -/
def sourcePatterns : List Str :=
  [['-', '-', '-'], ['-', '-'], [btick, btick], [apos, apos],
   ['\\', ','], ['\\', ';'], ['\\', ':'], ['\\', '!'],
   ['~'], ['\\', '-'], ['\\', '/'], ['\\', '&']]

/-! ## Lemmas about the two searching primitives -/

theorem findCharIdx_some {c : Char} :
    ∀ {l : Str} {k : Nat}, findCharIdx c l = some k →
      ∃ a b : Str, l = a ++ c :: b ∧ a.length = k := by
  intro l
  induction l with
  | nil => intro k h; simp [findCharIdx] at h
  | cons x rest ih =>
    intro k h
    simp only [findCharIdx] at h
    split at h
    · next hxc =>
      obtain rfl : (0 : Nat) = k := Option.some.inj h
      exact ⟨[], rest, by rw [hxc]; rfl, rfl⟩
    · next hxc =>
      cases hrec : findCharIdx c rest with
      | none => rw [hrec] at h; simp at h
      | some k' =>
        rw [hrec] at h
        simp only [Option.map_some'] at h
        obtain rfl : k' + 1 = k := Option.some.inj h
        obtain ⟨A, B, hAB, hlen⟩ := ih hrec
        exact ⟨x :: A, B, by rw [hAB]; rfl, by simp [hlen]⟩

theorem findCharIdx_none {c : Char} {l : Str} (h : c ∉ l) : findCharIdx c l = none := by
  induction l with
  | nil => rfl
  | cons x rest ih =>
    have hxc : ¬ x = c := fun hs => h (hs ▸ List.mem_cons_self x rest)
    simp only [findCharIdx, if_neg hxc]
    rw [ih (fun hm => h (List.mem_cons_of_mem x hm))]
    rfl

theorem findPairIdx_some {c₁ c₂ : Char} :
    ∀ {l : Str} {k : Nat}, findPairIdx c₁ c₂ l = some k →
      ∃ a b : Str, l = a ++ c₁ :: c₂ :: b ∧ a.length = k := by
  intro l
  induction l with
  | nil => intro k h; simp [findPairIdx] at h
  | cons x rest ih =>
    intro k h
    simp only [findPairIdx] at h
    split at h
    · next hx =>
      obtain ⟨hxc, hhd⟩ := hx
      obtain rfl : (0 : Nat) = k := Option.some.inj h
      match rest, hhd with
      | y :: rest', hhd =>
        have hy : y = c₂ := by simpa using hhd
        exact ⟨[], rest', by rw [hxc, hy]; rfl, rfl⟩
    · next hx =>
      cases hrec : findPairIdx c₁ c₂ rest with
      | none => rw [hrec] at h; simp at h
      | some k' =>
        rw [hrec] at h
        simp only [Option.map_some'] at h
        obtain rfl : k' + 1 = k := Option.some.inj h
        obtain ⟨A, B, hAB, hlen⟩ := ih hrec
        exact ⟨x :: A, B, by rw [hAB]; rfl, by simp [hlen]⟩

theorem findPairIdx_none {c₁ c₂ : Char} {l : Str} (h : c₁ ∉ l) :
    findPairIdx c₁ c₂ l = none := by
  induction l with
  | nil => rfl
  | cons x rest ih =>
    have hxc : ¬ (x = c₁ ∧ rest.head? = some c₂) :=
      fun hs => h (hs.1 ▸ List.mem_cons_self x rest)
    simp only [findPairIdx, if_neg hxc]
    rw [ih (fun hm => h (List.mem_cons_of_mem x hm))]
    rfl

/-! ## Lemmas about the math-region scan -/

theorem mathMatchAt_delimited {s : Str} {n : Nat} (h : mathMatchAt s = some n) :
    DelimitedSpan (s.take n) := by
  match s with
  | [] => simp [mathMatchAt] at h
  | [_] => simp [mathMatchAt] at h
  | a :: b :: rest =>
    simp only [mathMatchAt] at h
    by_cases h1 : a = '\\' ∧ b = '('
    · rw [if_pos h1] at h
      obtain ⟨rfl, rfl⟩ := h1
      cases rest with
      | nil => simp [findPairIdx] at h
      | cons c rest' =>
        simp only [List.tail_cons] at h
        cases hp : findPairIdx '\\' ')' rest' with
        | none => rw [hp] at h; simp at h
        | some k =>
          rw [hp] at h
          simp only [Option.map_some'] at h
          obtain rfl : k + 5 = n := Option.some.inj h
          obtain ⟨A, B, hAB, hlen⟩ := findPairIdx_some hp
          have hshape : '\\' :: '(' :: c :: rest' =
              (('\\' :: '(' :: (c :: A)) ++ ['\\', ')']) ++ B := by
            rw [hAB]; simp
          rw [hshape, List.take_left' (by simp [hlen])]
          exact Or.inl ⟨c :: A, by simp, rfl⟩
    · rw [if_neg h1] at h
      by_cases h2 : a = '\\' ∧ b = '['
      · rw [if_pos h2] at h
        obtain ⟨rfl, rfl⟩ := h2
        cases rest with
        | nil => simp [findPairIdx] at h
        | cons c rest' =>
          simp only [List.tail_cons] at h
          cases hp : findPairIdx '\\' ']' rest' with
          | none => rw [hp] at h; simp at h
          | some k =>
            rw [hp] at h
            simp only [Option.map_some'] at h
            obtain rfl : k + 5 = n := Option.some.inj h
            obtain ⟨A, B, hAB, hlen⟩ := findPairIdx_some hp
            have hshape : '\\' :: '[' :: c :: rest' =
                (('\\' :: '[' :: (c :: A)) ++ ['\\', ']']) ++ B := by
              rw [hAB]; simp
            rw [hshape, List.take_left' (by simp [hlen])]
            exact Or.inr (Or.inl ⟨c :: A, by simp, rfl⟩)
      · rw [if_neg h2] at h
        by_cases h3 : a = '$' ∧ b = '$'
        · rw [if_pos h3] at h
          obtain ⟨rfl, rfl⟩ := h3
          have hval := Option.some.inj h
          cases hp : findPairIdx '$' '$' rest with
          | none =>
            rw [hp] at hval
            simp only [Option.map_none', Option.getD_none] at hval
            obtain rfl : 2 = n := hval
            exact Or.inr (Or.inr (Or.inr ⟨[], rfl⟩))
          | some k =>
            rw [hp] at hval
            simp only [Option.map_some', Option.getD_some] at hval
            obtain rfl : k + 4 = n := hval
            obtain ⟨A, B, hAB, hlen⟩ := findPairIdx_some hp
            have hshape : '$' :: '$' :: rest =
                (('$' :: '$' :: A) ++ ['$', '$']) ++ B := by
              rw [hAB]; simp
            rw [hshape, List.take_left' (by simp [hlen])]
            exact Or.inr (Or.inr (Or.inl ⟨A, rfl⟩))
        · rw [if_neg h3] at h
          by_cases h4 : a = '$'
          · rw [if_pos h4] at h
            subst h4
            cases hp : findCharIdx '$' (b :: rest) with
            | none => rw [hp] at h; simp at h
            | some m =>
              rw [hp] at h
              simp only [Option.map_some'] at h
              obtain rfl : m + 2 = n := Option.some.inj h
              obtain ⟨A, B, hAB, hlen⟩ := findCharIdx_some hp
              have hshape : '$' :: b :: rest = (('$' :: A) ++ ['$']) ++ B := by
                rw [show b :: rest = A ++ '$' :: B from hAB]; simp
              rw [hshape, List.take_left' (by simp [hlen])]
              exact Or.inr (Or.inr (Or.inr ⟨A, rfl⟩))
          · rw [if_neg h4] at h
            simp at h

theorem mathMatchAt_pos {s : Str} {n : Nat} (h : mathMatchAt s = some n) : 2 ≤ n := by
  have hd := mathMatchAt_delimited h
  have hlen : 2 ≤ (s.take n).length := by
    rcases hd with ⟨core, _, hcs⟩ | ⟨core, _, hcs⟩ | ⟨core, hcs⟩ | ⟨core, hcs⟩ <;>
      rw [hcs] <;> simp
  rw [List.length_take] at hlen
  omega

theorem mathMatchAt_none_head {a : Char} (l : Str) (h1 : a ≠ '\\') (h2 : a ≠ '$') :
    mathMatchAt (a :: l) = none := by
  cases l with
  | nil => rfl
  | cons b rest => simp [mathMatchAt, h1, h2]

theorem mathMatchAt_dollar_none {w : Str} (h : '$' ∉ w) :
    mathMatchAt ('$' :: w) = none := by
  cases w with
  | nil => rfl
  | cons b rest =>
    have hb : ¬ b = '$' := fun hs => h (hs ▸ List.mem_cons_self b rest)
    have hbs : ('$' : Char) ≠ '\\' := by decide
    simp [mathMatchAt, hb, hbs, findCharIdx_none h]

theorem mathMatchAt_openParen_none {w : Str} (h : '\\' ∉ w) :
    mathMatchAt ('\\' :: '(' :: w) = none := by
  cases w with
  | nil => rfl
  | cons c w' =>
    have hw' : findPairIdx '\\' ')' w' = none :=
      findPairIdx_none (fun hm => h (List.mem_cons_of_mem c hm))
    simp [mathMatchAt, hw']

/-! ## Lemmas about the span decomposition -/

theorem splitSpansF_nil : ∀ f : Nat, splitSpansF f [] = [] := by
  intro f; cases f <;> rfl

theorem consPlain_flatten (c : Char) (L : List (Bool × Str)) :
    ((consPlain c L).map Prod.snd).flatten = c :: (L.map Prod.snd).flatten := by
  match L with
  | [] => rfl
  | (false, cs) :: t => rfl
  | (true, cs) :: t => rfl

theorem consPlain_mem_true {c : Char} {cs : Str} {L : List (Bool × Str)}
    (h : (true, cs) ∈ consPlain c L) : (true, cs) ∈ L := by
  match L with
  | [] => simp [consPlain] at h
  | (false, xs) :: t =>
    simp only [consPlain] at h
    rcases List.mem_cons.mp h with h' | h'
    · exact absurd h' (by simp)
    · exact List.mem_cons_of_mem _ h'
  | (true, xs) :: t =>
    simp only [consPlain] at h
    rcases List.mem_cons.mp h with h' | h'
    · exact absurd h' (by simp)
    · exact h'

theorem splitSpansF_flatten :
    ∀ (f : Nat) (s : Str), s.length ≤ f →
      ((splitSpansF f s).map Prod.snd).flatten = s := by
  intro f
  induction f with
  | zero =>
    intro s h
    obtain rfl : s = [] := List.length_eq_zero.mp (Nat.le_zero.mp h)
    rfl
  | succ f ih =>
    intro s h
    match s with
    | [] => rfl
    | c :: rest =>
      rw [splitSpansF]
      cases hm : mathMatchAt (c :: rest) with
      | some n =>
        simp only [List.map_cons, List.flatten_cons]
        rw [ih ((c :: rest).drop n) ?_]
        · exact List.take_append_drop n (c :: rest)
        · have hn := mathMatchAt_pos hm
          have hlen : (c :: rest).length ≤ f + 1 := h
          simp only [List.length_drop]
          simp only [List.length_cons] at hlen ⊢
          omega
      | none =>
        rw [consPlain_flatten, ih rest ?_]
        have hlen : (c :: rest).length ≤ f + 1 := h
        simp only [List.length_cons] at hlen
        omega

theorem splitSpans_flatten (s : Str) :
    ((splitSpans s).map Prod.snd).flatten = s :=
  splitSpansF_flatten s.length s le_rfl

theorem splitSpansF_true_mem :
    ∀ (f : Nat) (s : Str) (cs : Str), (true, cs) ∈ splitSpansF f s →
      ∃ (t : Str) (n : Nat), mathMatchAt t = some n ∧ cs = t.take n := by
  intro f
  induction f with
  | zero => intro s cs h; simp [splitSpansF] at h
  | succ f ih =>
    intro s cs h
    match s with
    | [] => simp [splitSpansF] at h
    | c :: rest =>
      rw [splitSpansF] at h
      cases hm : mathMatchAt (c :: rest) with
      | some n =>
        rw [hm] at h
        rcases List.mem_cons.mp h with h' | h'
        · obtain ⟨-, rfl⟩ := Prod.mk.inj h'
          exact ⟨c :: rest, n, hm, rfl⟩
        · exact ih _ _ h'
      | none =>
        rw [hm] at h
        exact ih _ _ (consPlain_mem_true h)

theorem splitSpans_snd_part {s cs : Str} {b : Bool}
    (h : (b, cs) ∈ splitSpans s) : cs <:+: s := by
  have h1 : cs ∈ (splitSpans s).map Prod.snd := List.mem_map_of_mem Prod.snd h
  have h2 := List.infix_of_mem_flatten h1
  rwa [splitSpans_flatten] at h2

/-! ## Identity lemmas for the substitution rules -/

theorem replace1_id {a : Char} {r : Str} :
    ∀ {s : Str}, ¬ [a] <:+: s → replace1 a r s = s := by
  intro s
  induction s with
  | nil => intro _; rfl
  | cons x rest ih =>
    intro h
    have hxa : ¬ x = a := by
      intro hxa
      exact h ⟨[], rest, by rw [hxa]; rfl⟩
    rw [replace1, if_neg hxa, ih fun hin => h (hin.trans (List.infix_cons (List.infix_refl rest)))]

theorem replace2_id {a b : Char} {r : Str} :
    ∀ {s : Str}, ¬ [a, b] <:+: s → replace2 a b r s = s := by
  intro s
  induction s with
  | nil => intro _; rfl
  | cons x rest ih =>
    intro h
    match rest, ih, h with
    | [], _, _ => rfl
    | y :: rest', ih, h =>
      have hxy : ¬ (x = a ∧ y = b) := by
        rintro ⟨rfl, rfl⟩
        exact h ⟨[], rest', rfl⟩
      rw [replace2, if_neg hxy,
        ih fun hin => h (hin.trans (List.infix_cons (List.infix_refl _)))]

theorem replace3_id {a b c : Char} {r : Str} :
    ∀ {s : Str}, ¬ [a, b, c] <:+: s → replace3 a b c r s = s := by
  intro s
  induction s with
  | nil => intro _; rfl
  | cons x rest ih =>
    intro h
    match rest, ih, h with
    | [], _, _ => rfl
    | [y], _, _ => rfl
    | y :: z :: rest', ih, h =>
      have hxyz : ¬ (x = a ∧ y = b ∧ z = c) := by
        rintro ⟨rfl, rfl, rfl⟩
        exact h ⟨[], rest', rfl⟩
      rw [replace3, if_neg hxyz,
        ih fun hin => h (hin.trans (List.infix_cons (List.infix_refl _)))]

theorem replaceThinF_id :
    ∀ (f : Nat) {s : Str}, ¬ ['\\', ','] <:+: s → replaceThinF f s = s := by
  intro f
  induction f with
  | zero => intro s _; rfl
  | succ f ih =>
    intro s h
    match s with
    | [] => rfl
    | x :: rest =>
      have hx : ¬ (x = '\\' ∧ rest.head? = some ',') := by
        rintro ⟨rfl, hhd⟩
        match rest, hhd with
        | y :: rest', hhd =>
          have hy : y = ',' := by simpa using hhd
          exact h ⟨[], rest', by rw [hy]; rfl⟩
      rw [replaceThinF, if_neg hx,
        ih fun hin => h (hin.trans (List.infix_cons (List.infix_refl _)))]

theorem replaceThin_id {s : Str} (h : ¬ ['\\', ','] <:+: s) : replaceThin s = s :=
  replaceThinF_id s.length h

theorem applyRules_id {s : Str} (h : ∀ p ∈ sourcePatterns, ¬ p <:+: s) :
    applyRules s = s := by
  have h1 := h ['-', '-', '-'] (by decide)
  have h2 := h ['-', '-'] (by decide)
  have h3 := h [btick, btick] (by decide)
  have h4 := h [apos, apos] (by decide)
  have h5 := h ['\\', ','] (by decide)
  have h6 := h ['\\', ';'] (by decide)
  have h7 := h ['\\', ':'] (by decide)
  have h8 := h ['\\', '!'] (by decide)
  have h9 := h ['~'] (by decide)
  have h10 := h ['\\', '-'] (by decide)
  have h11 := h ['\\', '/'] (by decide)
  have h12 := h ['\\', '&'] (by decide)
  simp only [applyRules, tex_replacements, List.foldl_cons, List.foldl_nil]
  rw [replace3_id h1, replace2_id h2, replace2_id h3, replace2_id h4,
    replaceThin_id h5, replace2_id h6, replace2_id h7, replace2_id h8,
    replace1_id h9, replace2_id h10, replace2_id h11, replace2_id h12]

/-! ## Strings in which the scan never finds a protected region -/

theorem suffix_append_cases {α : Type} {t u v : List α} (h : t <:+ u ++ v) :
    t <:+ v ∨ ∃ u' : List α, u' <:+ u ∧ u' ≠ [] ∧ t = u' ++ v := by
  induction u with
  | nil => left; simpa using h
  | cons a u ih =>
    rw [List.cons_append, List.suffix_cons_iff] at h
    cases h with
    | inl h => right; exact ⟨a :: u, List.suffix_refl _, by simp, by rw [h]; rfl⟩
    | inr h =>
      cases ih h with
      | inl h' => left; exact h'
      | inr h' =>
        obtain ⟨u', hs, hne, rfl⟩ := h'
        right; exact ⟨u', hs.trans (List.suffix_cons a u), hne, rfl⟩

theorem noMatch_suffix_dollar {u w : Str}
    (hu1 : '$' ∉ u) (hu2 : '\\' ∉ u) (hw1 : '$' ∉ w) (hw2 : '\\' ∉ w) :
    ∀ t : Str, t <:+ u ++ '$' :: w → t ≠ [] → mathMatchAt t = none := by
  intro t hsuf hne
  rcases suffix_append_cases hsuf with h | ⟨u', hs, hune, rfl⟩
  · rw [List.suffix_cons_iff] at h
    cases h with
    | inl h => rw [h]; exact mathMatchAt_dollar_none hw1
    | inr h =>
      match t, hne with
      | c :: t', _ =>
        have hc : c ∈ w := h.sublist.mem (List.mem_cons_self c t')
        exact mathMatchAt_none_head t' (fun hcc => hw2 (hcc ▸ hc)) (fun hcc => hw1 (hcc ▸ hc))
  · match u', hune with
    | c :: u'', _ =>
      have hc : c ∈ u := hs.sublist.mem (List.mem_cons_self c u'')
      exact mathMatchAt_none_head _ (fun hcc => hu2 (hcc ▸ hc)) (fun hcc => hu1 (hcc ▸ hc))

theorem noMatch_suffix_openParen {u w : Str}
    (hu1 : '$' ∉ u) (hu2 : '\\' ∉ u) (hw1 : '$' ∉ w) (hw2 : '\\' ∉ w) :
    ∀ t : Str, t <:+ u ++ '\\' :: '(' :: w → t ≠ [] → mathMatchAt t = none := by
  intro t hsuf hne
  rcases suffix_append_cases hsuf with h | ⟨u', hs, hune, rfl⟩
  · rw [List.suffix_cons_iff] at h
    cases h with
    | inl h => rw [h]; exact mathMatchAt_openParen_none hw2
    | inr h =>
      rw [List.suffix_cons_iff] at h
      cases h with
      | inl h => rw [h]; exact mathMatchAt_none_head _ (by decide) (by decide)
      | inr h =>
        match t, hne with
        | c :: t', _ =>
          have hc : c ∈ w := h.sublist.mem (List.mem_cons_self c t')
          exact mathMatchAt_none_head t' (fun hcc => hw2 (hcc ▸ hc)) (fun hcc => hw1 (hcc ▸ hc))
  · match u', hune with
    | c :: u'', _ =>
      have hc : c ∈ u := hs.sublist.mem (List.mem_cons_self c u'')
      exact mathMatchAt_none_head _ (fun hcc => hu2 (hcc ▸ hc)) (fun hcc => hu1 (hcc ▸ hc))

theorem splitSpansF_no_match :
    ∀ (f : Nat) (s : Str), s.length ≤ f → s ≠ [] →
      (∀ t : Str, t <:+ s → t ≠ [] → mathMatchAt t = none) →
      splitSpansF f s = [(false, s)] := by
  intro f
  induction f with
  | zero =>
    intro s hlen hne _
    exact absurd (List.length_eq_zero.mp (Nat.le_zero.mp hlen)) hne
  | succ f ih =>
    intro s hlen hne hall
    match s with
    | c :: rest =>
      have hm : mathMatchAt (c :: rest) = none :=
        hall _ (List.suffix_refl _) (by simp)
      rw [splitSpansF, hm]
      by_cases hr : rest = []
      · subst hr
        rw [splitSpansF_nil]
        rfl
      · rw [ih rest ?_ hr ?_]
        · rfl
        · have : (c :: rest).length ≤ f + 1 := hlen
          simp only [List.length_cons] at this
          omega
        · intro t ht htne
          exact hall t (ht.trans (List.suffix_cons c rest)) htne

/-! ## Claims about the Text Normalizer -/

/-- C1: every protected region of the left-to-right, shortest-match,
dot-matches-newline scan is copied into the output byte-for-byte with its
delimiters (`renderSpan` is the identity on math spans) and is a
well-delimited span; no substitution is applied inside it; the output is
the concatenation of the rewritten plain spans and the untouched
protected regions in original left-to-right order, and the spans
themselves concatenate back to the input. -/
theorem C1_protected_regions_verbatim (s : Str) :
    ((splitSpans s).map Prod.snd).flatten = s ∧
    normalize_tex_like s = ((splitSpans s).map renderSpan).flatten ∧
    ∀ cs : Str, (true, cs) ∈ splitSpans s →
      renderSpan (true, cs) = cs ∧ DelimitedSpan cs := by
  refine ⟨splitSpans_flatten s, ?_, ?_⟩
  · by_cases hs : s = []
    · subst hs; rfl
    · rw [normalize_tex_like, if_neg hs]; rfl
  · intro cs hmem
    refine ⟨rfl, ?_⟩
    obtain ⟨t, n, hm, rfl⟩ := splitSpansF_true_mem _ _ _ hmem
    exact mathMatchAt_delimited hm

/-- Witness for C1 at a concrete input containing one protected region. -/
theorem C1_protected_regions_verbatim_witness :
    ((splitSpans ("a--b $x$ c".toList)).map Prod.snd).flatten = "a--b $x$ c".toList ∧
    DelimitedSpan ("$x$".toList) :=
  ⟨(C1_protected_regions_verbatim ("a--b $x$ c".toList)).1,
   ((C1_protected_regions_verbatim ("a--b $x$ c".toList)).2.2 ("$x$".toList) (by decide)).2⟩

/-- C2: the twelve substitution rules are applied to a plain span in
exactly the listed fixed order, later rules seeing the output of earlier
ones; in particular the `---` rule runs before the `--` rule (so `a---b`
becomes an em dash, not an en dash followed by a hyphen), and the spec's
example normalizes as stated. -/
theorem C2_rule_order :
    (∀ chunk : Str,
      applyRules chunk =
        replace2 '\\' '&' ['&']
          (replace2 '\\' '/' []
            (replace2 '\\' '-' []
              (replace1 '~' [' ']
                (replace2 '\\' '!' []
                  (replace2 '\\' ':' [' ']
                    (replace2 '\\' ';' [' ']
                      (replaceThin
                        (replace2 apos apos ['”']
                          (replace2 btick btick ['“']
                            (replace2 '-' '-' ['–']
                              (replace3 '-' '-' '-' ['—'] chunk)))))))))))) ∧
    applyRules ("a---b".toList) = "a—b".toList ∧
    normalize_tex_like
        ("The ".toList ++ [btick, btick] ++ "smooth".toList ++ [apos, apos] ++
          " flow -- v2".toList) =
      "The “smooth” flow – v2".toList := by
  refine ⟨?_, by decide, by decide⟩
  intro chunk
  simp only [applyRules, tex_replacements, List.foldl_cons, List.foldl_nil]

/-- C7 fails as universally stated.  In `$$x$` the `$$` opener has no
matching `$$` close, yet the scan still protects it: the `$…$`
alternative matches it as an empty-content region, so `(true, "$$")` is
a span of the decomposition.  And in `\(x $--$` the `\(` opener is
unterminated, but the following text is not treated as ordinary plain
text: it contains the protected region `$--$`, whose `--` is therefore
not rewritten, so normalizing the string differs from applying the
substitution rules to the whole of it. -/
theorem C7_counterexample :
    (true, ['$', '$']) ∈ splitSpans ("$$x$".toList) ∧
    (true, "$--$".toList) ∈ splitSpans ("\\(x $--$".toList) ∧
    normalize_tex_like ("\\(x $--$".toList) ≠ applyRules ("\\(x $--$".toList) := by
  refine ⟨by decide, by decide, by decide⟩

/-- C7 (amended): an unterminated opener never matches as a protected
region of its own delimiter form at that position, but the scan goes
on: another alternative can match right there (an unterminated `$$` is
consumed as an empty `$…$` region) and later text can still contain
protected regions.  Only when the unterminated `$` or `\(` opener is
the sole delimiter character of the string is the entire string one
plain span with the substitution rules applied to all of it, the
opener included; the normalizer is a total function, so it returns a
string on every input. -/
theorem C7_unterminated_delimiter (u w : Str)
    (h1 : '$' ∉ u) (h2 : '\\' ∉ u) (h3 : '$' ∉ w) (h4 : '\\' ∉ w) :
    normalize_tex_like (u ++ '$' :: w) = applyRules (u ++ '$' :: w) ∧
    normalize_tex_like (u ++ '\\' :: '(' :: w) =
      applyRules (u ++ '\\' :: '(' :: w) := by
  constructor
  · have hne : u ++ '$' :: w ≠ [] := by simp
    rw [normalize_tex_like, if_neg hne, apply_tex_outside_math,
      show splitSpans (u ++ '$' :: w) = [(false, u ++ '$' :: w)] from
        splitSpansF_no_match _ _ le_rfl hne (noMatch_suffix_dollar h1 h2 h3 h4)]
    simp [renderSpan]
  · have hne : u ++ '\\' :: '(' :: w ≠ [] := by simp
    rw [normalize_tex_like, if_neg hne, apply_tex_outside_math,
      show splitSpans (u ++ '\\' :: '(' :: w) = [(false, u ++ '\\' :: '(' :: w)] from
        splitSpansF_no_match _ _ le_rfl hne (noMatch_suffix_openParen h1 h2 h3 h4)]
    simp [renderSpan]

/-- Witness for C7: a concrete string with an unterminated `$`. -/
theorem C7_unterminated_delimiter_witness :
    ('$' ∉ ("a--b ".toList) ∧ '\\' ∉ ("a--b ".toList) ∧
      '$' ∉ (" c".toList) ∧ '\\' ∉ (" c".toList)) ∧
    normalize_tex_like ("a--b ".toList ++ '$' :: " c".toList) =
      applyRules ("a--b ".toList ++ '$' :: " c".toList) :=
  ⟨by decide,
   (C7_unterminated_delimiter ("a--b ".toList) (" c".toList)
     (by decide) (by decide) (by decide) (by decide)).1⟩

/-- C9: a string containing none of the twelve source patterns is
returned unchanged by the normalizer, and hence normalizing twice equals
normalizing once on such a string. -/
theorem C9_already_normalized (s : Str)
    (h : ∀ p ∈ sourcePatterns, ¬ p <:+: s) :
    normalize_tex_like s = s ∧
    normalize_tex_like (normalize_tex_like s) = normalize_tex_like s := by
  have key : normalize_tex_like s = s := by
    by_cases hs : s = []
    · subst hs; rfl
    · rw [normalize_tex_like, if_neg hs, apply_tex_outside_math]
      have hmap : (splitSpans s).map renderSpan = (splitSpans s).map Prod.snd := by
        apply List.map_congr_left
        rintro ⟨b, cs⟩ hmem
        cases b with
        | true => rfl
        | false =>
          show applyRules cs = cs
          exact applyRules_id fun p hp hin =>
            h p hp (hin.trans (splitSpans_snd_part hmem))
      rw [hmap, splitSpans_flatten]
  refine ⟨key, ?_⟩
  rw [key, key]

/-- Witness for C9 at a concrete already-normalized string. -/
theorem C9_already_normalized_witness :
    (∀ p ∈ sourcePatterns, ¬ p <:+: ("hello $x+y$ world".toList)) ∧
    normalize_tex_like ("hello $x+y$ world".toList) = "hello $x+y$ world".toList :=
  ⟨by decide, (C9_already_normalized ("hello $x+y$ world".toList) (by decide)).1⟩

/-! ## Lemmas about the identifier extraction -/

theorem validArxivId_build {d1 d2 d3 d4 e1 e2 e3 e4 e5 : Char} {rest : Str}
    (hd : (d1.isDigit && d2.isDigit && d3.isDigit && d4.isDigit &&
      e1.isDigit && e2.isDigit && e3.isDigit && e4.isDigit && e5.isDigit) = true)
    (hrest : rest = [] ∨ ∃ vs : Str, rest = 'v' :: vs ∧ vs ≠ [] ∧ vs.all Char.isDigit = true) :
    validArxivId (d1 :: d2 :: d3 :: d4 :: '.' :: e1 :: e2 :: e3 :: e4 :: e5 :: rest) = true := by
  simp only [Bool.and_eq_true] at hd
  obtain ⟨⟨⟨⟨⟨⟨⟨⟨hd1, hd2⟩, hd3⟩, hd4⟩, he1⟩, he2⟩, he3⟩, he4⟩, he5⟩ := hd
  rcases hrest with rfl | ⟨vs, rfl, hne, hall⟩
  · simp [validArxivId, hd1, hd2, hd3, hd4, he1, he2, he3, he4, he5]
  · match vs, hne, hall with
    | v :: vt, _, hall =>
      simp [validArxivId, hd1, hd2, hd3, hd4, he1, he2, he3, he4, he5, hall]

theorem matchIdAt_valid : ∀ {s g : Str}, matchIdAt s = some g → validArxivId g = true := by
  intro s g h
  rw [matchIdAt.eq_def] at h
  split at h
  · rename_i d1 d2 d3 d4 e1 e2 e3 e4 e5 rest
    split at h
    · rename_i hdig
      split at h
      · rename_i vrest
        split at h
        · obtain rfl := Option.some.inj h
          exact validArxivId_build hdig (Or.inl rfl)
        · rename_i hds
          obtain rfl := Option.some.inj h
          refine validArxivId_build hdig (Or.inr ⟨vrest.takeWhile Char.isDigit, rfl, hds, ?_⟩)
          exact List.all_eq_true.mpr fun x hx => List.mem_takeWhile_imp hx
      · obtain rfl := Option.some.inj h
        exact validArxivId_build hdig (Or.inl rfl)
    · simp at h
  · simp at h

theorem searchId_valid : ∀ {href g : Str}, searchId href = some g → validArxivId g = true := by
  intro href
  induction href with
  | nil => intro g h; simp [searchId] at h
  | cons c rest ih =>
    intro g h
    rw [searchId] at h
    cases hm : matchIdAt (c :: rest) with
    | some g' =>
      rw [hm] at h
      obtain rfl := Option.some.inj h
      exact matchIdAt_valid hm
    | none =>
      rw [hm] at h
      exact ih h

theorem validArxivId_ne_nil {g : Str} (h : validArxivId g = true) : g ≠ [] := by
  rintro rfl
  simp [validArxivId] at h

/-! ## Lemmas about the pair parser -/

theorem parse_pair_none_of_no_link {dt : DtBlock} {dd : DdBlock}
    (h : dt.absLink = none) : parse_pair dt dd = none := by
  simp [parse_pair, h]

theorem parse_pair_none_of_no_id {dt : DtBlock} {dd : DdBlock} {href : Str}
    (h1 : dt.absLink = some href) (h2 : searchId href = none) :
    parse_pair dt dd = none := by
  simp [parse_pair, h1, h2]

theorem parse_pair_eq_some {dt : DtBlock} {dd : DdBlock} {e : Entry}
    (h : parse_pair dt dd = some e) :
    ∃ (href arxid : Str), dt.absLink = some href ∧ searchId href = some arxid ∧
      e.id = arxid ∧ e.absUrl = BASE ++ href := by
  cases hl : dt.absLink with
  | none => rw [parse_pair_none_of_no_link hl] at h; simp at h
  | some href =>
    cases hs : searchId href with
    | none => rw [parse_pair_none_of_no_id hl hs] at h; simp at h
    | some arxid =>
      simp only [parse_pair, hl, hs] at h
      obtain rfl := Option.some.inj h
      exact ⟨href, arxid, rfl, hs, rfl, rfl⟩

theorem length_filterMap_all_some {α β : Type} {fn : α → Option β} :
    ∀ {l : List α}, (∀ a ∈ l, (fn a).isSome = true) →
      (l.filterMap fn).length = l.length := by
  intro l
  induction l with
  | nil => intro _; rfl
  | cons a t ih =>
    intro h
    obtain ⟨b, hb⟩ := Option.isSome_iff_exists.mp (h a (List.mem_cons_self a t))
    rw [List.filterMap_cons_some hb, List.length_cons, List.length_cons,
      ih fun x hx => h x (List.mem_cons_of_mem a hx)]

/-! ## Lemmas about title and code extraction -/

theorem removeFirst_no_occurrence {pat : Str} :
    ∀ {s : Str}, ¬ pat <:+: s → removeFirst pat s = s := by
  intro s
  induction s with
  | nil => intro _; rfl
  | cons c rest ih =>
    intro h
    have hp : ¬ pat.isPrefixOf (c :: rest) = true := by
      intro hp
      exact h (List.isPrefixOf_iff_prefix.mp hp).isInfix
    rw [removeFirst, if_neg hp,
      ih fun hin => h (hin.trans (List.infix_cons (List.infix_refl _)))]

theorem removeFirst_leading_label {pat s : Str} (hne : pat ≠ [])
    (hpre : pat.isPrefixOf s = true) : removeFirst pat s = s.drop pat.length := by
  cases s with
  | nil =>
    cases pat with
    | nil => exact absurd rfl hne
    | cons p ps => simp [List.isPrefixOf] at hpre
  | cons c rest => rw [removeFirst, if_pos hpre]

theorem findCodesF_mem :
    ∀ (f : Nat) (s : Str) (c : Str), c ∈ findCodesF f s →
      c ≠ [] ∧ c.all isCodeChar = true := by
  intro f
  induction f with
  | zero => intro s c h; simp [findCodesF] at h
  | succ f ih =>
    intro s c h
    match s with
    | [] => simp [findCodesF] at h
    | x :: rest =>
      rw [findCodesF] at h
      split at h
      · rename_i hcond
        rcases List.mem_cons.mp h with rfl | h'
        · exact ⟨hcond.2.1, List.all_eq_true.mpr fun y hy => List.mem_takeWhile_imp hy⟩
        · exact ih _ _ h'
      · exact ih _ _ h

theorem findCodesF_no_paren :
    ∀ (f : Nat) (s : Str), '(' ∉ s → findCodesF f s = [] := by
  intro f
  induction f with
  | zero => intro s _; rfl
  | succ f ih =>
    intro s h
    match s with
    | [] => rfl
    | x :: rest =>
      have hx : ¬ x = '(' := fun hxx => h (hxx ▸ List.mem_cons_self x rest)
      rw [findCodesF, if_neg (fun hc => hx hc.1),
        ih rest fun hm => h (List.mem_cons_of_mem x hm)]

/-! ## Claims about the Listing Parser -/

/-- C3: every entry produced by the parser carries a non-empty identi-
fier matching `\d{4}\.\d{5}` optionally followed by `v` and digits, and
a head/body pair with no `/abs/` hyperlink, or whose hyperlink target
contains no matching identifier substring, is dropped entirely. -/
theorem C3_entries_have_valid_ids :
    (∀ (dts : List DtBlock) (dds : List DdBlock) (e : Entry),
        e ∈ parse_list dts dds → e.id ≠ [] ∧ validArxivId e.id = true) ∧
    (∀ (dt : DtBlock) (dd : DdBlock),
        (dt.absLink = none → parse_pair dt dd = none) ∧
        (∀ href : Str, dt.absLink = some href → searchId href = none →
          parse_pair dt dd = none)) := by
  constructor
  · intro dts dds e he
    obtain ⟨p, -, hp⟩ := List.mem_filterMap.mp he
    obtain ⟨href, arxid, -, hs, hid, -⟩ := parse_pair_eq_some hp
    have hv : validArxivId e.id = true := hid ▸ searchId_valid hs
    exact ⟨validArxivId_ne_nil hv, hv⟩
  · intro dt dd
    exact ⟨fun h => parse_pair_none_of_no_link h,
      fun href h1 h2 => parse_pair_none_of_no_id h1 h2⟩

/-- A concrete head block with a well-formed `/abs/` link. -/
def dtOK : DtBlock := ⟨some ("/abs/2401.00001".toList)⟩

/-- A concrete head block with no `/abs/` link at all. -/
def dtNoLink : DtBlock := ⟨none⟩

/-- A concrete body block with no recognised elements. -/
def ddEmpty : DdBlock := ⟨none, none, none⟩

/-- The entry the parser produces for `dtOK` paired with `ddEmpty`. -/
def eOK : Entry :=
  { id := "2401.00001".toList, title := [], abstract := [],
    absUrl := "https://arxiv.org/abs/2401.00001".toList, codes := [] }

/-- Witness for C3 at a concrete parsed page. -/
theorem C3_entries_have_valid_ids_witness :
    eOK ∈ parse_list [dtOK] [ddEmpty] ∧
    eOK.id ≠ [] ∧ validArxivId eOK.id = true :=
  ⟨by decide, C3_entries_have_valid_ids.1 [dtOK] [ddEmpty] eOK (by decide)⟩

/-- C4 fails as stated: two head blocks and one body block, but the
single positional pair has no hyperlink, so zero entries are emitted
rather than `min 2 1 = 1`. -/
theorem C4_counterexample :
    [dtNoLink, dtOK].length = 2 ∧ [ddEmpty].length = 1 ∧
    (parse_list [dtNoLink, dtOK] [ddEmpty]).length = 0 ∧
    (parse_list [dtNoLink, dtOK] [ddEmpty]).length ≠
      min [dtNoLink, dtOK].length [ddEmpty].length := by
  refine ⟨rfl, rfl, by decide, by decide⟩

/-- C4 (amended): with N head blocks and M body blocks the parser
processes exactly the first `min N M` positional pairs and never more —
it emits at most `min N M` entries, and exactly `min N M` when every
processed pair yields a valid identifier (the original claim's count;
dropped pairs reduce the count).  No error is raised in either case:
`parse_list` is total. -/
theorem C4_amended_truncation (dts : List DtBlock) (dds : List DdBlock) :
    (parse_list dts dds).length ≤ min dts.length dds.length ∧
    ((∀ p ∈ dts.zip dds, (parse_pair p.1 p.2).isSome = true) →
      (parse_list dts dds).length = min dts.length dds.length) := by
  constructor
  · calc (parse_list dts dds).length
        ≤ (dts.zip dds).length := List.length_filterMap_le _ _
      _ = min dts.length dds.length := List.length_zip dts dds
  · intro hall
    show ((dts.zip dds).filterMap fun p => parse_pair p.1 p.2).length = _
    rw [length_filterMap_all_some hall, List.length_zip]

/-- Witness for C4 (amended), with every pair valid. -/
theorem C4_amended_truncation_witness :
    (∀ p ∈ [dtOK].zip [ddEmpty], (parse_pair p.1 p.2).isSome = true) ∧
    (parse_list [dtOK] [ddEmpty]).length = min [dtOK].length [ddEmpty].length :=
  ⟨by decide, (C4_amended_truncation [dtOK] [ddEmpty]).2 (by decide)⟩

/-- Head block whose link is a plain `/abs/` href. -/
def dtPlainHref : DtBlock := ⟨some ("/abs/2501.01234".toList)⟩

/-- Head block whose link carries the same identifier but a different
href (a URL fragment is appended). -/
def dtFragmentHref : DtBlock := ⟨some ("/abs/2501.01234#x".toList)⟩

/-- C5 fails as stated: two entries with equal `id` but different
`abs_url`, because `abs_url` is `BASE + href`, not a function of `id`. -/
theorem C5_counterexample :
    (parse_pair dtPlainHref ddEmpty).map Entry.id =
      (parse_pair dtFragmentHref ddEmpty).map Entry.id ∧
    (parse_pair dtPlainHref ddEmpty).map Entry.absUrl ≠
      (parse_pair dtFragmentHref ddEmpty).map Entry.absUrl := by
  refine ⟨by decide, by decide⟩

/-- C5 (amended): `abs_url` is derived deterministically from the
hyperlink's href — it is `BASE ++ href` — so entries with equal hrefs
have equal `abs_url`s, but equal ids alone do not force equal urls. -/
theorem C5_amended_absurl (dt : DtBlock) (dd : DdBlock) (href : Str) (e : Entry)
    (h1 : dt.absLink = some href) (h2 : parse_pair dt dd = some e) :
    e.absUrl = BASE ++ href := by
  obtain ⟨href', arxid, hl, hs, hid, hurl⟩ := parse_pair_eq_some h2
  rw [h1] at hl
  obtain rfl := Option.some.inj hl
  exact hurl

/-- The entry the parser produces for `dtPlainHref` and `ddEmpty`. -/
def eC5 : Entry :=
  { id := "2501.01234".toList, title := [], abstract := [],
    absUrl := "https://arxiv.org/abs/2501.01234".toList, codes := [] }

/-- Witness for C5 (amended) at a concrete pair. -/
theorem C5_amended_absurl_witness :
    dtPlainHref.absLink = some ("/abs/2501.01234".toList) ∧
    parse_pair dtPlainHref ddEmpty = some eC5 ∧
    eC5.absUrl = BASE ++ "/abs/2501.01234".toList :=
  ⟨rfl, by decide,
   C5_amended_absurl dtPlainHref ddEmpty ("/abs/2501.01234".toList) eC5 rfl (by decide)⟩

/-- A concrete body block whose title text has an interior `Title:`. -/
def ddInteriorTitle : DdBlock := ⟨some ("A Title: B".toList), none, none⟩

/-- C6 fails as stated: the code removes the *first occurrence* of
`"Title:"` wherever it is (`str.replace(…, 1)`), so a title text not
beginning with `Title:` still loses its interior occurrence. -/
theorem C6_counterexample :
    (parse_pair dtOK ddInteriorTitle).map Entry.title = some ("A  B".toList) ∧
    (parse_pair dtOK ddInteriorTitle).map Entry.title ≠ some ("A Title: B".toList) := by
  refine ⟨by decide, by decide⟩

/-- C6 (amended): the entry's title is the element's flattened text
with the *first occurrence* of the literal `"Title:"` removed wherever
it occurs, then whitespace-trimmed; when `"Title:"` does not occur at
all the text is only trimmed, when it occurs leading it is stripped as a
prefix, and an absent element yields the empty title. -/
theorem C6_amended_title (txt : Str) :
    (¬ ("Title:".toList) <:+: txt → extract_title (some txt) = stripPy txt) ∧
    (("Title:".toList).isPrefixOf txt = true →
      extract_title (some txt) = stripPy (txt.drop 6)) ∧
    extract_title none = [] := by
  refine ⟨?_, ?_, rfl⟩
  · intro h
    show stripPy (removeFirst ("Title:".toList) txt) = stripPy txt
    rw [removeFirst_no_occurrence h]
  · intro h
    show stripPy (removeFirst ("Title:".toList) txt) = stripPy (txt.drop 6)
    rw [removeFirst_leading_label (by decide) h,
      show ("Title:".toList).length = 6 from by decide]

/-- Witness for C6 (amended) at a concrete leading-label title. -/
theorem C6_amended_title_witness :
    ("Title:".toList).isPrefixOf ("Title: Gas flows".toList) = true ∧
    extract_title (some ("Title: Gas flows".toList)) =
      stripPy (("Title: Gas flows".toList).drop 6) :=
  ⟨by decide, (C6_amended_title ("Title: Gas flows".toList)).2.1 (by decide)⟩

/-- C8: the codes of an entry are the parenthesized `[A-Za-z0-9.\-]+`
tokens of the flattened subjects text collected as a set: every member
is a non-empty token over that alphabet, there are no duplicates, an
absent subjects element gives the empty set, and a text with no
parenthesized token gives the empty set rather than an error. -/
theorem C8_subject_codes (so : Option Str) :
    (∀ c ∈ extract_codes so, c ≠ [] ∧ c.all isCodeChar = true) ∧
    (extract_codes so).Nodup ∧
    extract_codes none = [] ∧
    (∀ t : Str, so = some t → '(' ∉ t → extract_codes so = []) := by
  refine ⟨?_, List.nodup_dedup _, rfl, ?_⟩
  · intro c hc
    exact findCodesF_mem _ _ _ (List.mem_dedup.mp hc)
  · rintro t rfl ht
    show (findCodes t).dedup = []
    rw [show findCodes t = [] from findCodesF_no_paren _ _ ht]
    rfl

/-- Witness for C8: the spec's example subjects line, and a line with
no parenthesized token. -/
theorem C8_subject_codes_witness :
    ('(' ∉ ("no parens here".toList)) ∧
    extract_codes (some ("no parens here".toList)) = [] ∧
    (extract_codes (some ("Astrophysics of Galaxies (astro-ph.GA); Instrumentation (astro-ph.IM)".toList))).Nodup :=
  ⟨by decide,
   (C8_subject_codes (some ("no parens here".toList))).2.2.2 _ rfl (by decide),
   (C8_subject_codes (some ("Astrophysics of Galaxies (astro-ph.GA); Instrumentation (astro-ph.IM)".toList))).2.1⟩

/-! ## Claim about the classification in `main` -/

theorem classify_eq_filters (l : List Entry) :
    classify l =
      (l.filter (fun e => decide (gaCode ∈ e.codes)),
       l.filter (fun e => decide (gaCode ∉ e.codes ∧ imCode ∈ e.codes)),
       l.filter (fun e => decide (gaCode ∉ e.codes ∧ imCode ∉ e.codes))) := by
  have aux : ∀ (t : List Entry) (acc : List Entry × List Entry × List Entry),
      t.foldl
        (fun acc e =>
          if gaCode ∈ e.codes then (acc.1 ++ [e], acc.2.1, acc.2.2)
          else if imCode ∈ e.codes then (acc.1, acc.2.1 ++ [e], acc.2.2)
          else (acc.1, acc.2.1, acc.2.2 ++ [e])) acc =
      (acc.1 ++ t.filter (fun e => decide (gaCode ∈ e.codes)),
       acc.2.1 ++ t.filter (fun e => decide (gaCode ∉ e.codes ∧ imCode ∈ e.codes)),
       acc.2.2 ++ t.filter (fun e => decide (gaCode ∉ e.codes ∧ imCode ∉ e.codes))) := by
    intro t
    induction t with
    | nil => intro acc; simp
    | cons e t ih =>
      intro acc
      rw [List.foldl_cons]
      by_cases hga : gaCode ∈ e.codes
      · rw [if_pos hga, ih]
        simp [List.filter_cons, hga]
      · rw [if_neg hga]
        by_cases him : imCode ∈ e.codes
        · rw [if_pos him, ih]
          simp [List.filter_cons, hga, him]
        · rw [if_neg him, ih]
          simp [List.filter_cons, hga, him]
  have h := aux l ([], [], [])
  simpa [classify] using h

theorem filter_tripartition_length (l : List Entry) :
    (l.filter (fun e => decide (gaCode ∈ e.codes))).length +
      (l.filter (fun e => decide (gaCode ∉ e.codes ∧ imCode ∈ e.codes))).length +
      (l.filter (fun e => decide (gaCode ∉ e.codes ∧ imCode ∉ e.codes))).length =
    l.length := by
  induction l with
  | nil => rfl
  | cons e t ih =>
    rw [List.filter_cons, List.filter_cons, List.filter_cons]
    by_cases hga : gaCode ∈ e.codes
    · rw [if_pos (by simpa using hga), if_neg (by simp [hga]),
        if_neg (by simp [hga]), List.length_cons, List.length_cons]
      omega
    · by_cases him : imCode ∈ e.codes
      · rw [if_neg (by simp [hga]), if_pos (by simp [hga, him]),
          if_neg (by simp [him]), List.length_cons, List.length_cons]
        omega
      · rw [if_neg (by simp [hga]), if_neg (by simp [him]),
          if_pos (by simp [hga, him]), List.length_cons, List.length_cons]
        omega

/-- C10: the classification loop of `main` buckets every parsed entry
by an ordered membership check — GA bucket when `astro-ph.GA` is among
its codes, else IM bucket when `astro-ph.IM` is, else the remainder —
so the three buckets are order-preserving sublists that partition the
input (the lengths add up), and an entry with both codes lands in the
GA bucket only. -/
theorem C10_priority_buckets (l : List Entry) :
    classify l =
      (l.filter (fun e => decide (gaCode ∈ e.codes)),
       l.filter (fun e => decide (gaCode ∉ e.codes ∧ imCode ∈ e.codes)),
       l.filter (fun e => decide (gaCode ∉ e.codes ∧ imCode ∉ e.codes))) ∧
    (classify l).1.length + (classify l).2.1.length + (classify l).2.2.length = l.length ∧
    (List.Sublist (classify l).1 l ∧ List.Sublist (classify l).2.1 l ∧
      List.Sublist (classify l).2.2 l) ∧
    ∀ e : Entry, gaCode ∈ e.codes → imCode ∈ e.codes →
      (e ∈ (classify l).1 ↔ e ∈ l) ∧ e ∉ (classify l).2.1 ∧ e ∉ (classify l).2.2 := by
  have hcl := classify_eq_filters l
  refine ⟨hcl, ?_, ?_, ?_⟩
  · rw [hcl]
    exact filter_tripartition_length l
  · rw [hcl]
    exact ⟨List.filter_sublist l, List.filter_sublist l, List.filter_sublist l⟩
  · intro e hga him
    rw [hcl]
    refine ⟨?_, ?_, ?_⟩
    · simp only [List.mem_filter]
      constructor
      · exact fun h => h.1
      · exact fun h => ⟨h, by simpa using hga⟩
    · intro hmem
      have := (List.mem_filter.mp hmem).2
      simp at this
      exact absurd hga this.1
    · intro hmem
      have := (List.mem_filter.mp hmem).2
      simp at this
      exact absurd hga this.1

/-- An entry carrying both priority codes. -/
def eBoth : Entry :=
  { id := "2402.00002".toList, title := [], abstract := [],
    absUrl := "https://arxiv.org/abs/2402.00002".toList,
    codes := [gaCode, imCode] }

/-- Witness for C10 at a singleton list whose entry has both codes. -/
theorem C10_priority_buckets_witness :
    (gaCode ∈ eBoth.codes ∧ imCode ∈ eBoth.codes) ∧
    ((eBoth ∈ (classify [eBoth]).1 ↔ eBoth ∈ [eBoth]) ∧
      eBoth ∉ (classify [eBoth]).2.1 ∧ eBoth ∉ (classify [eBoth]).2.2) :=
  ⟨⟨by decide, by decide⟩,
   (C10_priority_buckets [eBoth]).2.2.2 eBoth (by decide) (by decide)⟩

end DailyArXiV
